import Mathlib

/-!
Shallow embedding of the `mirror` deep-copy library (`mirror.go`).

The Go code walks a destination ("target") and a source value of identical
static type in lock-step using `reflect`, dispatching on `src.Kind()`.
We embed the runtime values as the inductive `Val` and the static types as
the inductive `Ty`; the `reflect` operations used by the code translate as:

  * `reflect.Zero(t)` / `reflect.New(t).Elem()` / `MakeSlice` element
    initialisation — `Ty.zero t`;
  * `v.IsNil()` on slices/maps/pointers — the `Option` in the constructor;
  * `v.Len()` (zero for nil slices) — `Val.sliceElems`/length;
  * `v.MapIndex(k)` (invalid `Value` when the key is absent) — `lookupA`;
  * `v.IsZero()` on scalars — comparison against the scalar zero;
  * `exportUnexportedField` / `makeAddressable` — identity on values (they
    only change addressability/settability flags, never the value), except
    at the root: `reflect.ValueOf(p)` is never settable, which matters for
    the top-level `target.Set` in the pointer case (see `DeepCopy.From`).

Struct field types carry the Go exported/unexported flag (`true` =
exported) so that the `ignoreUnexported` option can be stated; mirroring
the source, `performDeepCopy` never consults either the flag or the
option (the `ignoreUnexported` field of `DeepCopy` is write-only in
`mirror.go`).

Maps are embedded as association lists with distinct keys (a representation
invariant of Go maps, recorded in `WT`); `reflect` map iteration order is
arbitrary, and the embedding fixes the list order, which is harmless
because all stated properties are order-insensitive (key sets and per-key
values).
-/

namespace Mirror

/-- Static Go types, restricted to the kinds `performDeepCopy` treats
specially plus `scalar` for everything hitting the `default` arm of the
Go `switch` (ints, strings, bools, ...). Map keys are fixed to a scalar
(comparable) key type, embedded as `Nat`. Struct fields carry the
exported flag (`true` = exported) and the field type. -/
inductive Ty : Type where
  | scalar : Ty
  | ptr : Ty → Ty
  | slice : Ty → Ty
  | mp : Ty → Ty
  | strct : List (Bool × Ty) → Ty
  | arr : Nat → Ty → Ty

/-- Runtime Go values. `invalid` is the zero `reflect.Value` (obtained from
`Elem()` of a nil pointer or `MapIndex` of an absent key); `none` on
`ptr`/`slice`/`mp` is Go `nil`. Scalars carry their payload as a `Nat`
with `0` as the type's zero value. -/
inductive Val : Type where
  | invalid : Val
  | scalar : Nat → Val
  | ptr : Option Val → Val
  | slice : Option (List Val) → Val
  | mp : Option (List (Nat × Val)) → Val
  | strct : List Val → Val
  | arr : List Val → Val

/-- Elements of a slice value; a nil slice has length 0 (`reflect` `Len`). -/
def Val.sliceElems : Val → List Val
  | .slice (some l) => l
  | _ => []

/-- Entries of a map value; a nil map has no entries. -/
def Val.mapEntries : Val → List (Nat × Val)
  | .mp (some l) => l
  | _ => []

/-- Fields of a struct value. -/
def Val.strctFields : Val → List Val
  | .strct l => l
  | _ => []

/-- Elements of an array value. -/
def Val.arrElems : Val → List Val
  | .arr l => l
  | _ => []

/-- Association-list lookup, the embedding of `reflect.Value.MapIndex`
(`none` = invalid `Value` for an absent key). -/
def lookupA (k : Nat) : List (Nat × Val) → Option Val
  | [] => none
  | (k2, v) :: rest => if k = k2 then some v else lookupA k rest

mutual

/-- The zero value of a type: `reflect.Zero(t)` (also what `reflect.New`
points at and what `MakeSlice` fills elements with). -/
def Ty.zero : Ty → Val
  | .scalar => .scalar 0
  | .ptr _ => .ptr none
  | .slice _ => .slice none
  | .mp _ => .mp none
  | .strct fts => .strct (Ty.zeroFields fts)
  | .arr n t => .arr (List.replicate n t.zero)

/-- Zero values of a struct's field list. -/
def Ty.zeroFields : List (Bool × Ty) → List Val
  | [] => []
  | (_, t) :: rest => t.zero :: Ty.zeroFields rest

end

mutual

/-- Boolean equality of static types: the embedding of the
`d.target.Type() != sval.Type()` comparison performed by `From`. -/
def Ty.beq : Ty → Ty → Bool
  | .scalar, .scalar => true
  | .ptr a, .ptr b => Ty.beq a b
  | .slice a, .slice b => Ty.beq a b
  | .mp a, .mp b => Ty.beq a b
  | .strct fa, .strct fb => Ty.beqFields fa fb
  | .arr n a, .arr m b => n == m && Ty.beq a b
  | _, _ => false

/-- Boolean equality of struct field lists. -/
def Ty.beqFields : List (Bool × Ty) → List (Bool × Ty) → Bool
  | [], [] => true
  | (ba, ta) :: ra, (bb, tb) :: rb =>
      ba == bb && Ty.beq ta tb && Ty.beqFields ra rb
  | _, _ => false

end

/-- The two boolean options of a `DeepCopy` (§`SetIgnoreZeroValues`,
`SetIgnoreUnexported`). -/
structure Config : Type where
  ignoreZeroValues : Bool
  ignoreUnexported : Bool

mutual

/-- The embedding of `performDeepCopy(target, src)` from `mirror.go`.

The Go function dispatches on `src.Kind()` and mutates `target` in place;
here the type `t` of the position (identical for target and source — the
invariant `From` enforces at the root and `reflect` guarantees below it)
is passed explicitly, and the mutated target is returned.  Arms are in
the order of the Go `switch`: Invalid, Array, Slice, Map, Struct, Ptr,
default (scalar).  Combinations of `t`/`target`/`src` that disagree on
kind cannot arise from a well-typed call and fall through to the final
arm, returning `target` unchanged. -/
def performDeepCopy (cfg : Config) : Ty → Val → Val → Val
  | _, target, .invalid => target
  | .arr _ et, target, .arr sElems =>
      -- for i < src.Len(): performDeepCopy(target.Index(i), src.Index(i))
      let tElems := Val.arrElems target
      .arr (((List.range sElems.length).map fun i =>
          performDeepCopy cfg et (tElems.getD i .invalid) (sElems.getD i .invalid))
        ++ tElems.drop sElems.length)
  | .slice _, target, .slice none =>
      -- src.IsNil(): zero the target unless ignoreZeroValues
      if cfg.ignoreZeroValues then target else .slice none
  | .slice et, target, .slice (some sElems) =>
      -- newSlice := MakeSlice; seed newSlice[i] from target[i] when
      -- i < target.Len(), then copy src[i] on top; target.Set(newSlice)
      let tElems := Val.sliceElems target
      .slice (some ((List.range sElems.length).map fun i =>
        performDeepCopy cfg et
          (if i < tElems.length then
            performDeepCopy cfg et (Ty.zero et) (tElems.getD i .invalid)
          else Ty.zero et)
          (sElems.getD i .invalid)))
  | .mp _, target, .mp none =>
      -- src.IsNil(): zero the target unless ignoreZeroValues
      if cfg.ignoreZeroValues then target else .mp none
  | .mp vt, target, .mp (some sEntries) =>
      -- newMap := MakeMapWithSize; for each src key: newVal := zero elem,
      -- seed from target.MapIndex(key) when valid, copy src value on top,
      -- SetMapIndex; target.Set(newMap)
      let tEntries := Val.mapEntries target
      .mp (some (sEntries.map fun kv =>
        (kv.1, performDeepCopy cfg vt
          ((lookupA kv.1 tEntries).elim (Ty.zero vt)
            (fun tv => performDeepCopy cfg vt (Ty.zero vt) tv))
          kv.2)))
  | .strct fts, target, .strct sFields =>
      -- field-by-field recursion; exportUnexportedField only toggles
      -- settability, so it is the identity on values, and the
      -- ignoreUnexported option is never consulted by the Go code
      .strct (copyFields cfg fts (Val.strctFields target) sFields)
  | .ptr pt, target, .ptr sp =>
      match sp with
      | none =>
          -- src.Elem() is invalid, so the recursive call is a no-op
          target
      | some s =>
          -- if target.IsNil(): target.Set(reflect.New(elem)); recurse
          .ptr (some (performDeepCopy cfg pt
            (match target with
              | .ptr (some tv) => tv
              | _ => Ty.zero pt)
            s))
  | .scalar, target, .scalar n =>
      -- default arm: target.Set(src) unless ignoreZeroValues && src.IsZero()
      if cfg.ignoreZeroValues && n == 0 then target else .scalar n
  | _, target, _ => target

/-- The struct arm's loop over fields (`i < src.NumField()`), with the
exported flag of each field carried (and, like the Go code, ignored). -/
def copyFields (cfg : Config) : List (Bool × Ty) → List Val → List Val → List Val
  | (_, ft) :: fts, tf :: tfs, sf :: sfs =>
      performDeepCopy cfg ft tf sf :: copyFields cfg fts tfs sfs
  | _, _, _ => []

end

/-- The `DeepCopy` struct of `mirror.go`: the target pointer obtained by
`reflect.ValueOf` plus the two options.  `DeepCopyInto` only constructs it
when the target's kind is `Ptr`, so the target's static type is recorded
as `.ptr pointee`. -/
structure DeepCopy : Type where
  pointee : Ty
  target : Val
  ignoreZeroValues : Bool
  ignoreUnexported : Bool

/-- `DeepCopyInto(target)`: panics (embedded as `Except.error`) unless the
target's kind is `Ptr`; otherwise returns the `DeepCopy` with both options
initialised to `false`. -/
def DeepCopyInto (targetTy : Ty) (target : Val) : Except String DeepCopy :=
  match targetTy with
  | .ptr pt => .ok ⟨pt, target, false, false⟩
  | _ => .error "cannot mutate target"

/-- Fluent setter for the ignore-zero-values option. -/
def DeepCopy.SetIgnoreZeroValues (d : DeepCopy) (b : Bool) : DeepCopy :=
  { d with ignoreZeroValues := b }

/-- Fluent setter for the ignore-unexported option. -/
def DeepCopy.SetIgnoreUnexported (d : DeepCopy) (b : Bool) : DeepCopy :=
  { d with ignoreUnexported := b }

/-- `From`'s "Cast T to *T" step: a source whose kind is not `Ptr` is
wrapped in a fresh addressable holder (`reflect.New` then `Set`). -/
def wrapSrc : Ty → Val → Ty × Val
  | .ptr t, v => (.ptr t, v)
  | t, v => (.ptr t, .ptr (some v))

/-- Whether a value is a nil pointer. -/
def isNilPtr : Val → Bool
  | .ptr none => true
  | _ => false

/-- Whether a value is a non-nil pointer. -/
def isSomePtr : Val → Bool
  | .ptr (some _) => true
  | _ => false

/-- `From(src)`: wrap a by-value source, panic (`Except.error`) when the
static types differ, then run `performDeepCopy(d.target, sval)`.

One further panic of the Go code is reachable and is modelled here:
`d.target` is the raw result of `reflect.ValueOf` at configuration time
and is therefore never addressable.  If it is a nil pointer and the
(wrapped) source is not nil, the Ptr arm of `performDeepCopy` executes
`target.Set(reflect.New(...))` on that unaddressable root, which panics
in `reflect`.  Every other `Set` the algorithm performs acts on an
addressable position (a pointee reached through `Elem`, a struct field of
an addressable struct, a fresh slice element, or the fresh holders built
by `makeAddressable`/`reflect.New` in the map arm), so the root is the
only position where addressability can fail. -/
def DeepCopy.From (d : DeepCopy) (srcTy : Ty) (src : Val) : Except String Val :=
  let s := wrapSrc srcTy src
  if Ty.beq (.ptr d.pointee) s.1 then
    if isNilPtr d.target && isSomePtr s.2 then
      .error "reflect: reflect.Value.Set using unaddressable value"
    else
      .ok (performDeepCopy ⟨d.ignoreZeroValues, d.ignoreUnexported⟩
        (.ptr d.pointee) d.target s.2)
  else
    .error "different types between target and source"

/-- Well-typedness of a runtime value at a static type.  Includes the two
representation invariants of the embedding: an array value has exactly its
type's length, and a map value's keys are pairwise distinct (as in a Go
map). -/
inductive WT : Ty → Val → Prop where
  | scalar (n : Nat) : WT .scalar (.scalar n)
  | ptrNone (t : Ty) : WT (.ptr t) (.ptr none)
  | ptrSome (t : Ty) (v : Val) : WT t v → WT (.ptr t) (.ptr (some v))
  | sliceNone (t : Ty) : WT (.slice t) (.slice none)
  | sliceSome (t : Ty) (l : List Val) : (∀ v ∈ l, WT t v) →
      WT (.slice t) (.slice (some l))
  | mpNone (t : Ty) : WT (.mp t) (.mp none)
  | mpSome (t : Ty) (l : List (Nat × Val)) : (∀ kv ∈ l, WT t kv.2) →
      (l.map Prod.fst).Nodup → WT (.mp t) (.mp (some l))
  | strct (fts : List (Bool × Ty)) (fs : List Val) : fs.length = fts.length →
      (∀ (i : Nat), i < fts.length →
        WT (fts.getD i (true, .scalar)).2 (fs.getD i .invalid)) →
      WT (.strct fts) (.strct fs)
  | arr (n : Nat) (t : Ty) (l : List Val) : l.length = n →
      (∀ v ∈ l, WT t v) → WT (.arr n t) (.arr l)

/-! ### Elementary facts about the embedding's auxiliary functions -/

theorem sliceElems_some (l : List Val) : Val.sliceElems (.slice (some l)) = l := rfl

theorem mapEntries_some (l : List (Nat × Val)) : Val.mapEntries (.mp (some l)) = l := rfl

theorem map_range_getD (n : Nat) (f : Nat → Val) (i : Nat) (d : Val) (h : i < n) :
    ((List.range n).map f).getD i d = f i := by
  have hlen : i < ((List.range n).map f).length := by simpa
  rw [List.getD_eq_getElem _ _ hlen, List.getElem_map, List.getElem_range]

theorem map_range_eq_self (l : List Val) (f : Nat → Val)
    (h : ∀ (i : Nat) (hi : i < l.length), f i = l[i]) :
    (List.range l.length).map f = l := by
  apply List.ext_getElem (by simp)
  intro i h1 h2
  rw [List.getElem_map, List.getElem_range]
  exact h i h2

theorem lookupA_eq_none (k : Nat) : ∀ (l : List (Nat × Val)),
    k ∉ l.map Prod.fst → lookupA k l = none := by
  intro l
  induction l with
  | nil => intro _; rfl
  | cons hd tl ih =>
      intro hk
      simp only [List.map_cons, List.mem_cons] at hk
      push_neg at hk
      simpa [lookupA, hk.1] using ih hk.2

theorem lookupA_some_mem (k : Nat) : ∀ (l : List (Nat × Val)) (v : Val),
    lookupA k l = some v → (k, v) ∈ l := by
  intro l
  induction l with
  | nil => intro v h; simp [lookupA] at h
  | cons hd tl ih =>
      intro v h
      rw [lookupA] at h
      by_cases hk : k = hd.1
      · simp only [hk, if_pos rfl] at h
        cases h
        rw [hk]
        exact List.mem_cons_self _ _
      · simp only [if_neg hk] at h
        exact List.mem_cons_of_mem _ (ih v h)

theorem lookupA_map_nodup (g : Nat × Val → Val) :
    ∀ (l : List (Nat × Val)), (l.map Prod.fst).Nodup →
      ∀ kv ∈ l, lookupA kv.1 (l.map (fun kv => (kv.1, g kv))) = some (g kv) := by
  intro l
  induction l with
  | nil => intro _ kv hkv; simp at hkv
  | cons hd tl ih =>
      intro hnd kv hkv
      simp only [List.map_cons, List.nodup_cons] at hnd
      rcases List.mem_cons.mp hkv with h | h
      · subst h
        simp [lookupA]
      · by_cases hk : kv.1 = hd.1
        · exact absurd (hk ▸ List.mem_map_of_mem Prod.fst h) hnd.1
        · simpa [lookupA, hk] using ih hnd.2 kv h

theorem zeroFields_length : ∀ (fts : List (Bool × Ty)),
    (Ty.zeroFields fts).length = fts.length := by
  intro fts
  induction fts with
  | nil => rfl
  | cons hd tl ih => rw [show Ty.zeroFields (hd :: tl) = hd.2.zero :: Ty.zeroFields tl from by
      rcases hd with ⟨b, t⟩; rfl]; simpa using ih

theorem zeroFields_getD : ∀ (fts : List (Bool × Ty)) (i : Nat), i < fts.length →
    (Ty.zeroFields fts).getD i .invalid = (fts.getD i (true, .scalar)).2.zero
  | (_, _) :: _, 0, _ => rfl
  | (_, _) :: fts, i + 1, h => zeroFields_getD fts i (by simpa using h)

theorem copyFields_length (cfg : Config) : ∀ (fts : List (Bool × Ty)) (tfs sfs : List Val),
    tfs.length = fts.length → sfs.length = fts.length →
    (copyFields cfg fts tfs sfs).length = fts.length := by
  intro fts
  induction fts with
  | nil => intro tfs sfs _ _; cases tfs <;> cases sfs <;> rfl
  | cons hd tl ih =>
      intro tfs sfs h1 h2
      rcases hd with ⟨b, t⟩
      cases tfs with
      | nil => simp at h1
      | cons tf tfs =>
          cases sfs with
          | nil => simp at h2
          | cons sf sfs =>
              simp only [copyFields, List.length_cons] at h1 h2 ⊢
              exact congrArg Nat.succ (ih tfs sfs (by omega) (by omega))

theorem copyFields_getD (cfg : Config) : ∀ (fts : List (Bool × Ty)) (tfs sfs : List Val),
    tfs.length = fts.length → sfs.length = fts.length →
    ∀ (i : Nat), i < fts.length →
      (copyFields cfg fts tfs sfs).getD i .invalid
        = performDeepCopy cfg (fts.getD i (true, .scalar)).2
            (tfs.getD i .invalid) (sfs.getD i .invalid) := by
  intro fts
  induction fts with
  | nil => intro tfs sfs _ _ i hi; simp at hi
  | cons hd tl ih =>
      intro tfs sfs h1 h2 i hi
      rcases hd with ⟨b, t⟩
      cases tfs with
      | nil => simp at h1
      | cons tf tfs =>
          cases sfs with
          | nil => simp at h2
          | cons sf sfs =>
              cases i with
              | zero => rfl
              | succ i =>
                  simp only [copyFields]
                  exact ih tfs sfs (by simpa using h1) (by simpa using h2) i
                    (by simpa using hi)

/-! ### Well-typedness of zero values -/

mutual

theorem wt_zero : ∀ (t : Ty), WT t (Ty.zero t)
  | .scalar => WT.scalar 0
  | .ptr t => WT.ptrNone t
  | .slice t => WT.sliceNone t
  | .mp t => WT.mpNone t
  | .strct fts =>
      WT.strct fts (Ty.zeroFields fts) (zeroFields_length fts)
        (fun i hi => zeroFields_getD fts i hi ▸ wt_zeroFields fts i hi)
  | .arr n t =>
      WT.arr n t (List.replicate n t.zero) (List.length_replicate n t.zero)
        (fun _ hv => (List.eq_of_mem_replicate hv) ▸ wt_zero t)

theorem wt_zeroFields : ∀ (fts : List (Bool × Ty)) (i : Nat), i < fts.length →
    WT (fts.getD i (true, .scalar)).2 ((fts.getD i (true, .scalar)).2.zero)
  | (_, t) :: _, 0, _ => wt_zero t
  | (_, _) :: fts, i + 1, h => wt_zeroFields fts i (by simpa using h)
  | [], i, h => absurd h (by simp)

end

/-! ### Unfolding equations for the arms of `performDeepCopy`, one per
kind of the Go `switch`. -/

theorem copy_invalid (cfg : Config) (t : Ty) (target : Val) :
    performDeepCopy cfg t target .invalid = target := by cases t <;> rfl

theorem copy_scalar (cfg : Config) (target : Val) (n : Nat) :
    performDeepCopy cfg .scalar target (.scalar n)
      = if cfg.ignoreZeroValues && n == 0 then target else .scalar n := rfl

theorem copy_ptr_none (cfg : Config) (pt : Ty) (target : Val) :
    performDeepCopy cfg (.ptr pt) target (.ptr none) = target := rfl

theorem copy_ptr_some (cfg : Config) (pt : Ty) (target s : Val) :
    performDeepCopy cfg (.ptr pt) target (.ptr (some s))
      = .ptr (some (performDeepCopy cfg pt
          (match target with | .ptr (some tv) => tv | _ => Ty.zero pt) s)) := rfl

theorem copy_slice_none (cfg : Config) (et : Ty) (target : Val) :
    performDeepCopy cfg (.slice et) target (.slice none)
      = if cfg.ignoreZeroValues then target else .slice none := rfl

theorem copy_slice_some (cfg : Config) (et : Ty) (target : Val) (sE : List Val) :
    performDeepCopy cfg (.slice et) target (.slice (some sE))
      = .slice (some ((List.range sE.length).map fun i =>
          performDeepCopy cfg et
            (if i < (Val.sliceElems target).length then
              performDeepCopy cfg et (Ty.zero et) ((Val.sliceElems target).getD i .invalid)
            else Ty.zero et)
            (sE.getD i .invalid))) := rfl

theorem copy_mp_none (cfg : Config) (vt : Ty) (target : Val) :
    performDeepCopy cfg (.mp vt) target (.mp none)
      = if cfg.ignoreZeroValues then target else .mp none := rfl

theorem copy_mp_some (cfg : Config) (vt : Ty) (target : Val) (sEntries : List (Nat × Val)) :
    performDeepCopy cfg (.mp vt) target (.mp (some sEntries))
      = .mp (some (sEntries.map fun kv =>
          (kv.1, performDeepCopy cfg vt
            ((lookupA kv.1 (Val.mapEntries target)).elim (Ty.zero vt)
              (fun tv => performDeepCopy cfg vt (Ty.zero vt) tv))
            kv.2))) := rfl

theorem copy_strct (cfg : Config) (fts : List (Bool × Ty)) (target : Val) (sFields : List Val) :
    performDeepCopy cfg (.strct fts) target (.strct sFields)
      = .strct (copyFields cfg fts (Val.strctFields target) sFields) := rfl

theorem copy_arr (cfg : Config) (n : Nat) (et : Ty) (target : Val) (sElems : List Val) :
    performDeepCopy cfg (.arr n et) target (.arr sElems)
      = .arr (((List.range sElems.length).map fun i =>
          performDeepCopy cfg et ((Val.arrElems target).getD i .invalid)
            (sElems.getD i .invalid))
        ++ (Val.arrElems target).drop sElems.length) := rfl

/-! ### Copying onto a zero value reproduces the source -/

/-- Copying a well-typed source onto the zero value of its type yields the
source itself, for every configuration: the ignore-zero-values branches
keep the target only where it already coincides with the zero source. -/
theorem copy_zero (cfg : Config) {t : Ty} {s : Val} (h : WT t s) :
    performDeepCopy cfg t (Ty.zero t) s = s := by
  induction h with
  | scalar n =>
      rw [show Ty.zero .scalar = Val.scalar 0 from rfl, copy_scalar]
      by_cases hn : n = 0 <;> simp [hn]
  | ptrNone t => rfl
  | ptrSome t v _ ih =>
      rw [show Ty.zero (Ty.ptr t) = Val.ptr none from rfl, copy_ptr_some]
      exact congrArg (fun w => Val.ptr (some w)) ih
  | sliceNone t =>
      rw [show Ty.zero (Ty.slice t) = Val.slice none from rfl, copy_slice_none]
      split <;> rfl
  | sliceSome t l hmem ih =>
      rw [show Ty.zero (Ty.slice t) = Val.slice none from rfl, copy_slice_some]
      refine congrArg (fun w => Val.slice (some w)) (map_range_eq_self l _ ?_)
      intro i hi
      rw [show Val.sliceElems (Val.slice none) = [] from rfl]
      simp only [List.length_nil, Nat.not_lt_zero, if_false]
      rw [List.getD_eq_getElem _ _ hi]
      exact ih _ (List.getElem_mem hi)
  | mpNone t =>
      rw [show Ty.zero (Ty.mp t) = Val.mp none from rfl, copy_mp_none]
      split <;> rfl
  | mpSome t l hmem hnd ih =>
      rw [show Ty.zero (Ty.mp t) = Val.mp none from rfl, copy_mp_some]
      refine congrArg (fun w => Val.mp (some w)) ?_
      rw [show Val.mapEntries (Val.mp none) = [] from rfl]
      have : ∀ kv ∈ l, (kv.1, performDeepCopy cfg t
          ((lookupA kv.1 []).elim (Ty.zero t)
            (fun tv => performDeepCopy cfg t (Ty.zero t) tv)) kv.2) = kv := by
        intro kv hkv
        rw [show lookupA kv.1 [] = none from rfl]
        exact congrArg (fun w => (kv.1, w)) (ih kv hkv) |>.trans rfl
      rw [List.map_congr_left this, List.map_id']
  | strct fts fs hlen hmem ih =>
      rw [show Ty.zero (Ty.strct fts) = Val.strct (Ty.zeroFields fts) from rfl, copy_strct]
      rw [show Val.strctFields (Val.strct (Ty.zeroFields fts)) = Ty.zeroFields fts from rfl]
      refine congrArg Val.strct ?_
      apply List.ext_getElem
      · rw [copyFields_length cfg fts _ _ (zeroFields_length fts) hlen]
        omega
      · intro i h1 h2
        rw [copyFields_length cfg fts _ _ (zeroFields_length fts) hlen] at h1
        rw [← List.getD_eq_getElem _ Val.invalid h2,
          ← List.getD_eq_getElem _ Val.invalid
            (show i < (copyFields cfg fts (Ty.zeroFields fts) fs).length from by
              rw [copyFields_length cfg fts _ _ (zeroFields_length fts) hlen]; omega),
          copyFields_getD cfg fts _ _ (zeroFields_length fts) hlen i h1,
          zeroFields_getD fts i h1]
        exact ih i h1
  | arr n t l hlen hmem ih =>
      rw [show Ty.zero (Ty.arr n t) = Val.arr (List.replicate n t.zero) from rfl, copy_arr]
      rw [show Val.arrElems (Val.arr (List.replicate n t.zero))
        = List.replicate n t.zero from rfl]
      refine congrArg Val.arr ?_
      have hdrop : (List.replicate n t.zero).drop l.length = [] := by
        rw [hlen, List.drop_replicate]
        simp
      rw [hdrop, List.append_nil]
      apply map_range_eq_self
      intro i hi
      have hrep : (List.replicate n t.zero).getD i .invalid = t.zero := by
        rw [List.getD_eq_getElem _ _ (by rw [List.length_replicate]; omega)]
        exact List.getElem_replicate _ _
      rw [hrep, List.getD_eq_getElem _ _ hi]
      exact ih _ (List.getElem_mem hi)

/-! ### The copy of well-typed values is well-typed -/

theorem wt_copy (cfg : Config) {t : Ty} {b : Val} (hb : WT t b) :
    ∀ a : Val, WT t a → WT t (performDeepCopy cfg t a b) := by
  induction hb with
  | scalar n =>
      intro a ha
      rw [copy_scalar]
      split
      · exact ha
      · exact WT.scalar n
  | ptrNone t =>
      intro a ha
      rw [copy_ptr_none]
      exact ha
  | ptrSome t v _ ih =>
      intro a ha
      cases ha with
      | ptrNone => exact WT.ptrSome _ _ (ih _ (wt_zero t))
      | ptrSome _ tv htv => exact WT.ptrSome _ _ (ih _ htv)
  | sliceNone t =>
      intro a ha
      rw [copy_slice_none]
      split
      · exact ha
      · exact WT.sliceNone t
  | sliceSome t l _ ih =>
      intro a ha
      rw [copy_slice_some]
      refine WT.sliceSome t _ ?_
      intro v hv
      rcases List.mem_map.mp hv with ⟨i, hir, rfl⟩
      have hi : i < l.length := List.mem_range.mp hir
      have hsv : l.getD i .invalid ∈ l := by
        rw [List.getD_eq_getElem _ _ hi]
        exact List.getElem_mem hi
      refine ih _ hsv _ ?_
      split
      · rename_i hlt
        have htv : WT t ((Val.sliceElems a).getD i .invalid) := by
          cases ha with
          | sliceNone => simp [Val.sliceElems] at hlt
          | sliceSome _ la hla =>
              simp only [Val.sliceElems] at hlt ⊢
              rw [List.getD_eq_getElem _ _ hlt]
              exact hla _ (List.getElem_mem hlt)
        rw [copy_zero cfg htv]
        exact htv
      · exact wt_zero t
  | mpNone t =>
      intro a ha
      rw [copy_mp_none]
      split
      · exact ha
      · exact WT.mpNone t
  | mpSome t l _ hnd ih =>
      intro a ha
      rw [copy_mp_some]
      refine WT.mpSome t _ ?_ ?_
      · intro kv hkv
        rcases List.mem_map.mp hkv with ⟨kv0, hkv0, rfl⟩
        refine ih kv0 hkv0 _ ?_
        cases hl : lookupA kv0.1 (Val.mapEntries a) with
        | none => exact wt_zero t
        | some tv =>
            have hmem : (kv0.1, tv) ∈ Val.mapEntries a := lookupA_some_mem _ _ _ hl
            have htv : WT t tv := by
              cases ha with
              | mpNone => simp [Val.mapEntries] at hmem
              | mpSome _ la hla _ =>
                  simp only [Val.mapEntries] at hmem
                  exact hla (kv0.1, tv) hmem
            show WT t (performDeepCopy cfg t (Ty.zero t) tv)
            rw [copy_zero cfg htv]
            exact htv
      · simpa [List.map_map, Function.comp] using hnd
  | strct fts fs hlen _ ih =>
      intro a ha
      rw [copy_strct]
      cases ha with
      | strct _ tfs hlen2 hmem2 =>
          simp only [Val.strctFields]
          refine WT.strct fts _ ?_ ?_
          · exact copyFields_length cfg fts tfs fs hlen2 hlen
          · intro i hi
            rw [copyFields_getD cfg fts tfs fs hlen2 hlen i hi]
            exact ih i hi _ (hmem2 i hi)
  | arr n t l hlen _ ih =>
      intro a ha
      rw [copy_arr]
      cases ha with
      | arr _ _ tE hlen2 hmem2 =>
          simp only [Val.arrElems]
          refine WT.arr n t _ ?_ ?_
          · simp only [List.length_append, List.length_map, List.length_range,
              List.length_drop]
            omega
          · intro v hv
            rcases List.mem_append.mp hv with h | h
            · rcases List.mem_map.mp h with ⟨i, hir, rfl⟩
              have hi : i < l.length := List.mem_range.mp hir
              have hti : i < tE.length := by omega
              have htv : WT t (tE.getD i .invalid) := by
                rw [List.getD_eq_getElem _ _ hti]
                exact hmem2 _ (List.getElem_mem hti)
              have hsv : l.getD i .invalid ∈ l := by
                rw [List.getD_eq_getElem _ _ hi]
                exact List.getElem_mem hi
              exact ih _ hsv _ htv
            · rw [show tE.drop l.length = [] from by
                rw [hlen, ← hlen2]; exact List.drop_length tE] at h
              simp at h

/-! ### Idempotence of the copy in its source argument -/

theorem wt_sliceElems {t : Ty} {a : Val} (ha : WT (.slice t) a) :
    ∀ v ∈ Val.sliceElems a, WT t v := by
  cases ha with
  | sliceNone => intro v hv; simp [Val.sliceElems] at hv
  | sliceSome _ la hla => exact hla

theorem wt_seed (cfg : Config) {t : Ty} {la : List Val} (hla : ∀ v ∈ la, WT t v) (i : Nat) :
    WT t (if i < la.length then
        performDeepCopy cfg t (Ty.zero t) (la.getD i .invalid)
      else Ty.zero t) := by
  split
  · rename_i hlt
    have htv : WT t (la.getD i .invalid) := by
      rw [List.getD_eq_getElem _ _ hlt]
      exact hla _ (List.getElem_mem hlt)
    rw [copy_zero cfg htv]
    exact htv
  · exact wt_zero t

theorem wt_seedM (cfg : Config) {t : Ty} {a : Val} (ha : WT (.mp t) a) (k : Nat) :
    WT t ((lookupA k (Val.mapEntries a)).elim (Ty.zero t)
      (fun tv => performDeepCopy cfg t (Ty.zero t) tv)) := by
  cases hl : lookupA k (Val.mapEntries a) with
  | none => exact wt_zero t
  | some tv =>
      have hmem := lookupA_some_mem _ _ _ hl
      have htv : WT t tv := by
        cases ha with
        | mpNone => simp [Val.mapEntries] at hmem
        | mpSome _ la hla _ => exact hla _ hmem
      show WT t (performDeepCopy cfg t (Ty.zero t) tv)
      rw [copy_zero cfg htv]
      exact htv

/-- `performDeepCopy` is idempotent in its source argument: copying the same
well-typed source a second time onto the result changes nothing. -/
theorem copy_idem (cfg : Config) {t : Ty} {b : Val} (hb : WT t b) :
    ∀ a : Val, WT t a →
      performDeepCopy cfg t (performDeepCopy cfg t a b) b
        = performDeepCopy cfg t a b := by
  induction hb with
  | scalar n =>
      intro a _
      simp only [copy_scalar]
      by_cases hz : (cfg.ignoreZeroValues && n == 0) = true <;> simp [hz]
  | ptrNone t =>
      intro a _
      rw [copy_ptr_none, copy_ptr_none]
  | ptrSome t v _ ih =>
      intro a ha
      cases ha with
      | ptrNone =>
          show Val.ptr (some (performDeepCopy cfg t
              (performDeepCopy cfg t (Ty.zero t) v) v))
            = Val.ptr (some (performDeepCopy cfg t (Ty.zero t) v))
          rw [ih _ (wt_zero t)]
      | ptrSome _ tv htv =>
          show Val.ptr (some (performDeepCopy cfg t
              (performDeepCopy cfg t tv v) v))
            = Val.ptr (some (performDeepCopy cfg t tv v))
          rw [ih _ htv]
  | sliceNone t =>
      intro a _
      simp only [copy_slice_none]
      by_cases hz : cfg.ignoreZeroValues = true <;> simp [hz]
  | sliceSome t l hmem ih =>
      intro a ha
      simp only [copy_slice_some, sliceElems_some]
      refine congrArg (fun w => Val.slice (some w)) ?_
      apply List.map_congr_left
      intro i hir
      have hi : i < l.length := List.mem_range.mp hir
      have hsv : l.getD i .invalid ∈ l := by
        rw [List.getD_eq_getElem _ _ hi]
        exact List.getElem_mem hi
      have hseed := wt_seed cfg (wt_sliceElems ha) i
      have hfWT : WT t (performDeepCopy cfg t
          (if i < (Val.sliceElems a).length then
            performDeepCopy cfg t (Ty.zero t) ((Val.sliceElems a).getD i .invalid)
          else Ty.zero t) (l.getD i .invalid)) :=
        wt_copy cfg (hmem _ hsv) _ hseed
      rw [if_pos (show i < ((List.range l.length).map fun i =>
        performDeepCopy cfg t
          (if i < (Val.sliceElems a).length then
            performDeepCopy cfg t (Ty.zero t) ((Val.sliceElems a).getD i .invalid)
          else Ty.zero t)
          (l.getD i .invalid)).length from by simpa using hi)]
      rw [map_range_getD _ _ i _ hi]
      rw [copy_zero cfg hfWT]
      exact ih _ hsv _ hseed
  | mpNone t =>
      intro a _
      simp only [copy_mp_none]
      by_cases hz : cfg.ignoreZeroValues = true <;> simp [hz]
  | mpSome t l hmem hnd ih =>
      intro a ha
      simp only [copy_mp_some, mapEntries_some]
      refine congrArg (fun w => Val.mp (some w)) ?_
      apply List.map_congr_left
      intro kv hkv
      refine congrArg (fun w => (kv.1, w)) ?_
      rw [lookupA_map_nodup _ l hnd kv hkv, Option.elim_some]
      have hseed := wt_seedM cfg ha kv.1
      have hgWT : WT t (performDeepCopy cfg t
          ((lookupA kv.1 (Val.mapEntries a)).elim (Ty.zero t)
            (fun tv => performDeepCopy cfg t (Ty.zero t) tv)) kv.2) :=
        wt_copy cfg (hmem _ hkv) _ hseed
      rw [copy_zero cfg hgWT]
      exact ih _ hkv _ hseed
  | strct fts fs hlen _ ih =>
      intro a ha
      cases ha with
      | strct _ tfs hlen2 hmem2 =>
          simp only [copy_strct, Val.strctFields]
          refine congrArg Val.strct ?_
          have hL1 := copyFields_length cfg fts tfs fs hlen2 hlen
          apply List.ext_getElem
          · rw [copyFields_length cfg fts _ fs hL1 hlen, hL1]
          · intro i h1 h2
            have hi : i < fts.length := by
              rwa [copyFields_length cfg fts _ fs hL1 hlen] at h1
            rw [← List.getD_eq_getElem _ Val.invalid h1,
              ← List.getD_eq_getElem _ Val.invalid h2,
              copyFields_getD cfg fts _ fs hL1 hlen i hi,
              copyFields_getD cfg fts tfs fs hlen2 hlen i hi]
            exact ih i hi _ (hmem2 i hi)
  | arr n t l hlen hmem ih =>
      intro a ha
      cases ha with
      | arr _ _ tE hlen2 hmem2 =>
          simp only [copy_arr, Val.arrElems]
          have hdrop1 : tE.drop l.length = [] := by
            rw [hlen, ← hlen2]
            exact List.drop_length tE
          rw [hdrop1, List.append_nil]
          refine congrArg Val.arr ?_
          rw [show ((List.range l.length).map fun i =>
              performDeepCopy cfg t (tE.getD i .invalid) (l.getD i .invalid)).drop l.length
              = [] from List.drop_eq_nil_of_le (by simp), List.append_nil]
          apply List.map_congr_left
          intro i hir
          have hi : i < l.length := List.mem_range.mp hir
          have hsv : l.getD i .invalid ∈ l := by
            rw [List.getD_eq_getElem _ _ hi]
            exact List.getElem_mem hi
          have hti : i < tE.length := by omega
          have htv : WT t (tE.getD i .invalid) := by
            rw [List.getD_eq_getElem _ _ hti]
            exact hmem2 _ (List.getElem_mem hti)
          rw [map_range_getD _ _ i _ hi]
          exact ih _ hsv _ htv

/-- Success test for the `Except`-embedded panics. -/
def isOk {α : Type} : Except String α → Bool
  | .ok _ => true
  | .error _ => false

theorem isNilPtr_iff (a : Val) : isNilPtr a = true ↔ a = .ptr none := by
  cases a with
  | ptr tp => cases tp <;> simp [isNilPtr]
  | invalid => simp [isNilPtr]
  | scalar m => simp [isNilPtr]
  | slice l => simp [isNilPtr]
  | mp l => simp [isNilPtr]
  | strct l => simp [isNilPtr]
  | arr l => simp [isNilPtr]

theorem isSomePtr_iff (a : Val) : isSomePtr a = true ↔ ∃ w, a = .ptr (some w) := by
  cases a with
  | ptr tp => cases tp <;> simp [isSomePtr]
  | invalid => simp [isSomePtr]
  | scalar m => simp [isSomePtr]
  | slice l => simp [isSomePtr]
  | mp l => simp [isSomePtr]
  | strct l => simp [isSomePtr]
  | arr l => simp [isSomePtr]

/-! ## The claims -/

/-- Claim C1 (code bug): the ignore-inaccessible-members option has no
effect.  Going through the full API with `ignoreUnexported = true`, a
struct whose single member is unexported (flag `false`) still has that
member overwritten by the source (1 becomes 2), although the claim says it
must be skipped and retain the destination's value.  The `ignoreUnexported`
flag set by `SetIgnoreUnexported` is never read by `performDeepCopy`. -/
theorem C1_unexported_copied_despite_option :
    DeepCopyInto (.ptr (.strct [(false, .scalar)]))
        (.ptr (some (.strct [.scalar 1])))
      = .ok ⟨.strct [(false, .scalar)], .ptr (some (.strct [.scalar 1])), false, false⟩
    ∧ (DeepCopy.SetIgnoreUnexported
          ⟨.strct [(false, .scalar)], .ptr (some (.strct [.scalar 1])), false, false⟩
          true).From
        (.strct [(false, .scalar)]) (.strct [.scalar 2])
      = .ok (.ptr (some (.strct [.scalar 2]))) :=
  ⟨rfl, rfl⟩

/-- Claim C2 (confirmed): for a present source sequence the copy builds a
brand-new sequence of the source's length whose element `i` is obtained by
seeding a zero element from the destination's prior element at `i` (only
when `i` is below the destination's prior length) and then copying the
source's element at `i` on top, and the destination's sequence is replaced
wholesale; in particular, with `ignoreZeroValues = true` a zero member in a
source element keeps the destination's prior member at that index. -/
theorem C2_sequence_seed_then_overwrite (cfg : Config) (et : Ty) (target : Val)
    (sE : List Val) :
    (∃ newE : List Val,
      performDeepCopy cfg (.slice et) target (.slice (some sE)) = .slice (some newE)
      ∧ newE.length = sE.length
      ∧ ∀ i : Fin sE.length,
          newE.getD i .invalid =
            performDeepCopy cfg et
              (if (i : Nat) < (Val.sliceElems target).length then
                performDeepCopy cfg et (Ty.zero et)
                  ((Val.sliceElems target).getD i .invalid)
              else Ty.zero et)
              (sE.getD i .invalid))
    ∧ performDeepCopy ⟨true, false⟩ (.slice (.strct [(true, .scalar)]))
        (.slice (some [.strct [.scalar 1]])) (.slice (some [.strct [.scalar 0]]))
      = .slice (some [.strct [.scalar 1]]) := by
  constructor
  · refine ⟨_, copy_slice_some cfg et target sE, by simp, ?_⟩
    intro i
    exact map_range_getD _ _ i _ i.2
  · rfl

/-- Claim C4 (confirmed): when the source sequence or mapping is absent
(nil), no element-level work happens: with `ignoreZeroValues = true` the
destination is left untouched, with `ignoreZeroValues = false` it is set to
the absent (nil) state. -/
theorem C4_absent_source_collections (iu : Bool) (et vt : Ty) (target : Val) :
    performDeepCopy ⟨true, iu⟩ (.slice et) target (.slice none) = target
    ∧ performDeepCopy ⟨false, iu⟩ (.slice et) target (.slice none) = .slice none
    ∧ performDeepCopy ⟨true, iu⟩ (.mp vt) target (.mp none) = target
    ∧ performDeepCopy ⟨false, iu⟩ (.mp vt) target (.mp none) = .mp none :=
  ⟨rfl, rfl, rfl, rfl⟩

/-- Claim C5 (confirmed): an absent (nil) source pointer leaves the
destination's pointer — and hence its referent, if any — completely
untouched, for every configuration of the options. -/
theorem C5_absent_source_ptr_frame (cfg : Config) (pt : Ty) (tp : Option Val) :
    performDeepCopy cfg (.ptr pt) (.ptr tp) (.ptr none) = .ptr tp :=
  rfl

/-- Claim C6 (confirmed): when the destination pointer is nil and the source
pointer is present, the copy allocates a fresh zero referent, recursively
copies the source's referent into it (so the result equals the source's
referent for well-typed sources — the freshness of the allocation is
reflected by the `Ty.zero` seed, the embedding of `reflect.New`), and the
destination pointer ends up non-nil; the concrete scenario
D = \x7bX: nil\x7d, S = \x7bX: &\x7bG: 7\x7d\x7d is evaluated as well. -/
theorem C6_ptr_absent_dst_allocates (cfg : Config) (pt : Ty) (s : Val)
    (h : WT pt s) :
    performDeepCopy cfg (.ptr pt) (.ptr none) (.ptr (some s))
        = .ptr (some (performDeepCopy cfg pt (Ty.zero pt) s))
    ∧ performDeepCopy cfg (.ptr pt) (.ptr none) (.ptr (some s)) = .ptr (some s)
    ∧ performDeepCopy ⟨false, false⟩ (.ptr (.strct [(true, .scalar)]))
        (.ptr none) (.ptr (some (.strct [.scalar 7])))
      = .ptr (some (.strct [.scalar 7])) := by
  refine ⟨rfl, ?_, rfl⟩
  show Val.ptr (some (performDeepCopy cfg pt (Ty.zero pt) s)) = .ptr (some s)
  rw [copy_zero cfg h]

/-- Witness for C6 at a concrete input. -/
theorem C6_witness :
    performDeepCopy ⟨true, true⟩ (.ptr .scalar) (.ptr none) (.ptr (some (.scalar 3)))
        = .ptr (some (performDeepCopy ⟨true, true⟩ .scalar (Ty.zero .scalar) (.scalar 3)))
    ∧ performDeepCopy ⟨true, true⟩ (.ptr .scalar) (.ptr none) (.ptr (some (.scalar 3)))
        = .ptr (some (.scalar 3))
    ∧ performDeepCopy ⟨false, false⟩ (.ptr (.strct [(true, .scalar)]))
        (.ptr none) (.ptr (some (.strct [.scalar 7])))
      = .ptr (some (.strct [.scalar 7])) :=
  C6_ptr_absent_dst_allocates ⟨true, true⟩ .scalar (.scalar 3) (WT.scalar 3)

/-- Claim C7 (confirmed): at a scalar position the source value is assigned
into the destination unless `ignoreZeroValues` is enabled and the source is
the zero value of its type, in which case the destination is unchanged; a
non-zero source always overwrites. -/
theorem C7_scalar_policy (izv iu : Bool) (tv sv : Nat) :
    performDeepCopy ⟨izv, iu⟩ .scalar (.scalar tv) (.scalar sv)
      = if izv = true ∧ sv = 0 then .scalar tv else .scalar sv := by
  rw [copy_scalar]
  by_cases h1 : izv = true <;> by_cases h2 : sv = 0 <;> simp [h1, h2]

/-- Claim C3 (confirmed): for a present source mapping the copy builds a
brand-new mapping with exactly the source's keys; each entry starts from a
fresh zero element, is seeded from the destination's entry for that key if
one exists, is then overwritten from the source's entry, and the
destination's mapping is replaced wholesale, so keys present only in the
destination beforehand are absent afterwards. -/
theorem C3_mapping_full_replacement (cfg : Config) (vt : Ty) (target : Val)
    (sEntries : List (Nat × Val)) :
    ∃ newE : List (Nat × Val),
      performDeepCopy cfg (.mp vt) target (.mp (some sEntries)) = .mp (some newE)
      ∧ newE.map Prod.fst = sEntries.map Prod.fst
      ∧ (∀ i : Fin sEntries.length,
          newE.getD i (0, .invalid) =
            ((sEntries.getD i (0, .invalid)).1,
              performDeepCopy cfg vt
                ((lookupA (sEntries.getD i (0, .invalid)).1
                    (Val.mapEntries target)).elim
                  (Ty.zero vt) (fun tv => performDeepCopy cfg vt (Ty.zero vt) tv))
                (sEntries.getD i (0, .invalid)).2))
      ∧ ∀ k : Nat, k ∉ sEntries.map Prod.fst →
          lookupA k (sEntries.map fun kv =>
            (kv.1, performDeepCopy cfg vt
              ((lookupA kv.1 (Val.mapEntries target)).elim (Ty.zero vt)
                (fun tv => performDeepCopy cfg vt (Ty.zero vt) tv))
              kv.2)) = none := by
  have hkeys : (sEntries.map fun kv =>
      (kv.1, performDeepCopy cfg vt
        ((lookupA kv.1 (Val.mapEntries target)).elim (Ty.zero vt)
          (fun tv => performDeepCopy cfg vt (Ty.zero vt) tv))
        kv.2)).map Prod.fst = sEntries.map Prod.fst := by
    rw [List.map_map]
    rfl
  refine ⟨_, copy_mp_some cfg vt target sEntries, hkeys, ?_, ?_⟩
  · intro i
    have hi : (i : Nat) < sEntries.length := i.2
    have h1 : (i : Nat) < (sEntries.map fun kv =>
        (kv.1, performDeepCopy cfg vt
          ((lookupA kv.1 (Val.mapEntries target)).elim (Ty.zero vt)
            (fun tv => performDeepCopy cfg vt (Ty.zero vt) tv))
          kv.2)).length := by simp
    rw [List.getD_eq_getElem _ _ h1, List.getElem_map,
      ← List.getD_eq_getElem _ (0, Val.invalid) hi]
  · intro k hk
    apply lookupA_eq_none
    rw [hkeys]
    exact hk

/-- Witness for C3 at a concrete input: destination has keys 1 and 2,
source has key 1 only; the result has exactly the source's key set. -/
theorem C3_witness :
    ∃ newE : List (Nat × Val),
      performDeepCopy ⟨false, false⟩ (.mp .scalar)
          (.mp (some [(1, .scalar 5), (2, .scalar 6)]))
          (.mp (some [(1, .scalar 7)]))
        = .mp (some newE)
      ∧ newE.map Prod.fst = [(1, Val.scalar 7)].map Prod.fst
      ∧ (∀ i : Fin [(1, Val.scalar 7)].length,
          newE.getD i (0, .invalid) =
            (([(1, Val.scalar 7)].getD i (0, .invalid)).1,
              performDeepCopy ⟨false, false⟩ .scalar
                ((lookupA ([(1, Val.scalar 7)].getD i (0, .invalid)).1
                    (Val.mapEntries
                      (.mp (some [(1, .scalar 5), (2, .scalar 6)])))).elim
                  (Ty.zero .scalar)
                  (fun tv => performDeepCopy ⟨false, false⟩ .scalar
                    (Ty.zero .scalar) tv))
                ([(1, Val.scalar 7)].getD i (0, .invalid)).2))
      ∧ ∀ k : Nat, k ∉ [(1, Val.scalar 7)].map Prod.fst →
          lookupA k ([(1, Val.scalar 7)].map fun kv =>
            (kv.1, performDeepCopy ⟨false, false⟩ .scalar
              ((lookupA kv.1 (Val.mapEntries
                  (.mp (some [(1, .scalar 5), (2, .scalar 6)])))).elim
                (Ty.zero .scalar)
                (fun tv => performDeepCopy ⟨false, false⟩ .scalar
                  (Ty.zero .scalar) tv))
              kv.2)) = none :=
  C3_mapping_full_replacement ⟨false, false⟩ .scalar
    (.mp (some [(1, .scalar 5), (2, .scalar 6)])) [(1, .scalar 7)]

/-- Claim C10 (confirmed): for fixed-length arrays the copy recurses
element-wise into the destination's existing elements for every index below
the source's length, with no absence check and no separate seeding (the
destination's existing element is the recursion's target); the length is
preserved. -/
theorem C10_array_elementwise (cfg : Config) (n : Nat) (et : Ty)
    (tE sE : List Val) (h : tE.length = sE.length) :
    ∃ newE : List Val,
      performDeepCopy cfg (.arr n et) (.arr tE) (.arr sE) = .arr newE
      ∧ newE.length = tE.length
      ∧ ∀ i : Fin sE.length,
          newE.getD i .invalid
            = performDeepCopy cfg et (tE.getD i .invalid) (sE.getD i .invalid) := by
  refine ⟨_, copy_arr cfg n et (.arr tE) sE, ?_, ?_⟩
  · simp only [Val.arrElems, List.length_append, List.length_map,
      List.length_range, List.length_drop]
    omega
  · intro i
    have hi : (i : Nat) < sE.length := i.2
    simp only [show Val.arrElems (Val.arr tE) = tE from rfl]
    have hlt : (i : Nat) < ((List.range sE.length).map fun j =>
        performDeepCopy cfg et (tE.getD j .invalid) (sE.getD j .invalid)).length := by
      simp
    have happ : (i : Nat) < (((List.range sE.length).map fun j =>
        performDeepCopy cfg et (tE.getD j .invalid) (sE.getD j .invalid))
          ++ tE.drop sE.length).length := by
      simp only [List.length_append]
      omega
    rw [List.getD_eq_getElem _ _ happ, List.getElem_append_left hlt,
      ← List.getD_eq_getElem _ Val.invalid hlt, map_range_getD _ _ i _ hi]

/-- Claim C8, counterexample: the claim says `From` aborts if and only if
the source's static type differs from the destination's.  Here the wrapped
source type equals the target's pointer type, yet `From` aborts: the root
target is a nil pointer — never addressable, being the raw
`reflect.ValueOf` result — and the source is present, so the Ptr arm's
`target.Set(reflect.New(...))` panics in `reflect`. -/
theorem C8_counterexample :
    Ty.beq (.ptr .scalar) (wrapSrc .scalar (.scalar 5)).1 = true
    ∧ DeepCopyInto (.ptr .scalar) (.ptr none)
        = .ok ⟨.scalar, .ptr none, false, false⟩
    ∧ DeepCopy.From ⟨.scalar, .ptr none, false, false⟩ .scalar (.scalar 5)
        = .error "reflect: reflect.Value.Set using unaddressable value" :=
  ⟨rfl, rfl, rfl⟩

/-- Claim C8 as amended (corrected): configuration (`DeepCopyInto`) aborts
iff the destination is not a pointer; invocation (`From`) aborts iff the
wrapped source's static type differs from the target's, or the target root
pointer is nil while the wrapped source is present; in every other case
the call completes without a reported error. -/
theorem C8_fatal_preconditions :
    (∀ (tt : Ty) (tv : Val), isOk (DeepCopyInto tt tv) = true ↔ ∃ pt, tt = .ptr pt)
    ∧ (∀ (d : DeepCopy) (sTy : Ty) (sv : Val),
        isOk (DeepCopy.From d sTy sv) = true ↔
          (Ty.beq (.ptr d.pointee) (wrapSrc sTy sv).1 = true
            ∧ ¬(d.target = .ptr none
                ∧ ∃ w, (wrapSrc sTy sv).2 = .ptr (some w)))) := by
  constructor
  · intro tt tv
    cases tt with
    | ptr pt => exact ⟨fun _ => ⟨pt, rfl⟩, fun _ => rfl⟩
    | scalar => exact ⟨(fun hc => nomatch hc), by rintro ⟨_, hc⟩; exact nomatch hc⟩
    | slice et => exact ⟨(fun hc => nomatch hc), by rintro ⟨_, hc⟩; exact nomatch hc⟩
    | mp vt => exact ⟨(fun hc => nomatch hc), by rintro ⟨_, hc⟩; exact nomatch hc⟩
    | strct fts => exact ⟨(fun hc => nomatch hc), by rintro ⟨_, hc⟩; exact nomatch hc⟩
    | arr n et => exact ⟨(fun hc => nomatch hc), by rintro ⟨_, hc⟩; exact nomatch hc⟩
  · intro d sTy sv
    rw [DeepCopy.From]
    by_cases hb : Ty.beq (.ptr d.pointee) (wrapSrc sTy sv).1 = true
    · rw [if_pos hb]
      by_cases hp : (isNilPtr d.target && isSomePtr (wrapSrc sTy sv).2) = true
      · rw [if_pos hp]
        rw [Bool.and_eq_true, isNilPtr_iff, isSomePtr_iff] at hp
        simp only [isOk, hb, true_and]
        constructor
        · intro hc
          exact absurd hc (by simp)
        · intro hc
          exact absurd hp hc
      · rw [if_neg hp]
        rw [Bool.and_eq_true] at hp
        simp only [isOk, hb, true_and, true_iff]
        intro hc
        rcases hc with ⟨h1, w, h2⟩
        exact hp ⟨(isNilPtr_iff d.target).mpr h1,
          (isSomePtr_iff (wrapSrc sTy sv).2).mpr ⟨w, h2⟩⟩
    · rw [if_neg hb]
      simp only [isOk]
      constructor
      · intro hc
        exact absurd hc (by simp)
      · intro hc
        exact absurd hc.1 hb

/-- Claim C9 (confirmed): invoking `from(S)` twice in succession on the
same destination yields the same observable destination as invoking it
once, for every configuration of the two boolean options and well-typed
destination and source of identical static type. -/
theorem C9_from_idempotent (izv iu : Bool) (pt : Ty) (tval : Val) (sTy : Ty)
    (sv res : Val) (ht : WT (.ptr pt) tval)
    (hs : WT (.ptr pt) (wrapSrc sTy sv).2)
    (h1 : DeepCopy.From ⟨pt, tval, izv, iu⟩ sTy sv = .ok res) :
    DeepCopy.From ⟨pt, res, izv, iu⟩ sTy sv = .ok res := by
  simp only [DeepCopy.From] at h1 ⊢
  by_cases hb : Ty.beq (.ptr pt) (wrapSrc sTy sv).1 = true
  · rw [if_pos hb] at h1 ⊢
    generalize hw : (wrapSrc sTy sv).2 = w at hs h1 ⊢
    cases hs with
    | ptrNone =>
        rw [show isSomePtr (Val.ptr none) = false from rfl, Bool.and_false] at h1 ⊢
        rw [if_neg (by simp)] at h1 ⊢
        rw [copy_ptr_none] at h1 ⊢
    | ptrSome _ s hsw =>
        rw [show isSomePtr (Val.ptr (some s)) = true from rfl, Bool.and_true] at h1 ⊢
        cases ht with
        | ptrNone =>
            rw [show isNilPtr (Val.ptr none) = true from rfl, if_pos rfl] at h1
            exact absurd h1 (by simp)
        | ptrSome _ tv htv =>
            rw [show isNilPtr (Val.ptr (some tv)) = false from rfl,
              if_neg (by simp)] at h1
            rw [copy_ptr_some] at h1
            simp only [Except.ok.injEq] at h1
            subst h1
            rw [show isNilPtr (Val.ptr (some (performDeepCopy ⟨izv, iu⟩ pt tv s)))
                = false from rfl,
              if_neg (by simp)]
            refine congrArg Except.ok ?_
            exact copy_idem ⟨izv, iu⟩ (WT.ptrSome pt s hsw) _ (WT.ptrSome pt tv htv)
  · rw [if_neg hb] at h1
    exact absurd h1 (by simp)

/-- Witness for C9 at a concrete input. -/
theorem C9_witness :
    DeepCopy.From ⟨.scalar, .ptr (some (.scalar 2)), false, false⟩ .scalar (.scalar 2)
      = .ok (.ptr (some (.scalar 2))) :=
  C9_from_idempotent false false .scalar (.ptr (some (.scalar 1))) .scalar (.scalar 2)
    (.ptr (some (.scalar 2))) (WT.ptrSome _ _ (WT.scalar 1))
    (WT.ptrSome _ _ (WT.scalar 2)) rfl

/-- Witness for C10 at a concrete input. -/
theorem C10_witness :
    ∃ newE : List Val,
      performDeepCopy ⟨false, false⟩ (.arr 1 .scalar)
          (.arr [.scalar 1]) (.arr [.scalar 2]) = .arr newE
      ∧ newE.length = [Val.scalar 1].length
      ∧ ∀ i : Fin [Val.scalar 2].length,
          newE.getD i .invalid
            = performDeepCopy ⟨false, false⟩ .scalar
                ([Val.scalar 1].getD i .invalid) ([Val.scalar 2].getD i .invalid) :=
  C10_array_elementwise ⟨false, false⟩ 1 .scalar [.scalar 1] [.scalar 2] rfl

end Mirror
